import Mathlib

/-!
Verification of the SHAD repository: a shallow embedding of the
`data_types.h` encode/decode specializations (for `ENC_t = uint64_t`,
`IN_t = std::string`), together with a model, derived from the design
specification, of the distributed hashmap layer exercised by
`hashmap_perf.cc` (whose implementation sources are not part of the
inspected tree).

Machine integers are modelled as `Nat` (values below `2 ^ 64`) with
explicit wrapping where the C++ code can wrap; `int64_t`/`time_t`
bit patterns stored into `uint64_t` are modelled with `Int.emod (2 ^ 64)`.
C++ `std::string` is a byte/character sequence; functions that the C++
code applies to `std::string` are embedded over `List Char` (or, for the
byte-level `CHARS` codec, `List Nat`).
-/

/-- Null sentinel `kNullValue<uint64_t>`: `std::numeric_limits<int64_t>::max()`
(`data_types.h`, lines 83-84). -/
def kNullValueU64 : Nat := 2 ^ 63 - 1

/-- C `isspace` in the default locale, as consulted by `std::stoull` and
friends when skipping leading whitespace: space, `\t`, `\n`, vertical tab,
form feed, `\r`. -/
def isSpaceC (c : Char) : Bool :=
  c = ' ' || c = '\t' || c = '\n' || c.toNat = 11 || c.toNat = 12 || c = '\r'

/-- ASCII decimal digit test (C `isdigit`). -/
def isDigitC (c : Char) : Bool :=
  48 ≤ c.toNat && c.toNat ≤ 57

/-- Numeric value of an ASCII digit character. -/
def digitVal (c : Char) : Nat := c.toNat - 48

/-- Value of a most-significant-first digit-character run, accumulated left
to right (the way `strtoull` accumulates digits). -/
def digitsVal (acc : Nat) : List Char → Nat
  | [] => acc
  | c :: cs => digitsVal (acc * 10 + digitVal c) cs

/-- Strip one optional leading sign, reporting whether it was a minus
(`strtoull`/`strtoll` accept one optional `+` or `-`). -/
def stripSign (cs : List Char) : Bool × List Char :=
  match cs with
  | [] => (false, [])
  | c :: rest =>
    if c = '-' then (true, rest)
    else if c = '+' then (false, rest)
    else (false, c :: rest)

/-- Model of `std::stoull(s)` (base 10): skip leading whitespace, accept an
optional sign, read the longest run of decimal digits, ignore any trailing
characters. No digits at all raises `invalid_argument` (here `none`); a
digit run whose magnitude exceeds `2 ^ 64 - 1` raises `out_of_range`
(here `none`); a minus sign wraps the value modulo `2 ^ 64` as `strtoull`
specifies. -/
def stoullChars (cs : List Char) : Option Nat :=
  let cs1 := (cs.dropWhile isSpaceC)
  let sgn := stripSign cs1
  let ds := sgn.2.takeWhile isDigitC
  if ds.isEmpty then none
  else
    let m := digitsVal 0 ds
    if 2 ^ 64 - 1 < m then none
    else if sgn.1 then some ((2 ^ 64 - m % 2 ^ 64) % 2 ^ 64) else some m

/-- Specialization `encode<uint64_t, std::string, UINT>` (`data_types.h`, lines 151-159):
`std::stoull`, with any exception mapped to `kNullValue<uint64_t>`. -/
def encode_UINT (s : String) : Nat :=
  match stoullChars s.toList with
  | none => kNullValueU64
  | some v => v

/-- Decimal digits of `n`, least significant first, with explicit fuel
(`fuel` must be at least `n`; the digit recursion is on `n / 10`). -/
def natDigitsAux : Nat → Nat → List Nat
  | 0, _ => []
  | fuel + 1, n => if n = 0 then [] else n % 10 :: natDigitsAux fuel (n / 10)

/-- Model of `std::to_string` on an unsigned value: the canonical decimal
character run (most significant digit first, no sign, no leading zeros,
and the single digit `0` for zero). -/
def natToDecimal (n : Nat) : List Char :=
  if n = 0 then [Char.ofNat 48]
  else ((natDigitsAux n n).reverse.map (fun d => Char.ofNat (48 + d)))

/-- Specialization `decode<uint64_t, std::string, UINT>` (`data_types.h`, lines 298-304):
the null sentinel decodes to the empty string, anything else through
`std::to_string`. -/
def decode_UINT (v : Nat) : String :=
  if v = kNullValueU64 then "" else String.mk (natToDecimal v)

/-- Byte `i` of the `c_str()` buffer of a byte string: the bytes of `s`,
then the NUL terminator, idealizing memory past the terminator as zero. -/
def cstrByte (s : List Nat) (i : Nat) : Nat := s.getD i 0

/-- Specialization `encode<uint64_t, std::string, CHARS>` (`data_types.h`, lines 209-217):
zero the 8-byte word (`memset`), then `memcpy` the first 7 bytes of
`str.c_str()` into its low-address bytes; on a little-endian word, byte `i`
contributes `256 ^ i`. -/
def encode_CHARS (s : List Nat) : Nat :=
  ((List.range 7).map (cstrByte s)).foldr (fun b acc => b + 256 * acc) 0

/-- Byte `i` (little-endian) of an 8-byte word value. -/
def wordByte (v i : Nat) : Nat := v / 256 ^ i % 256

/-- Specialization `decode<uint64_t, std::string, CHARS>` (`data_types.h`, lines 344-350):
`std::string` built from the word's bytes read from the lowest address up
to the first NUL (the encoder always leaves byte 7 zero). -/
def decode_CHARS (v : Nat) : List Nat :=
  ((List.range 8).map (wordByte v)).takeWhile (fun b => b ≠ 0)

/-- One pass of the `IP_ADDRESS` field loop (`data_types.h`, lines
219-239): take the characters up to the next `.`, run `std::stoull` on
them (an exception yields the null sentinel), require the value below 256,
shift it into the accumulator (a `uint64_t`, hence the wrap), and continue
after the dot. -/
def ipLoop : Nat → Nat → List Char → Nat
  | 0, value, _ => value
  | n + 1, value, cs =>
    let field := cs.takeWhile (fun c => c ≠ '.')
    let rest := cs.dropWhile (fun c => c ≠ '.')
    match stoullChars field with
    | none => kNullValueU64
    | some val =>
      if val < 256 then ipLoop n ((value * 256 + val) % 2 ^ 64) (rest.drop 1)
      else kNullValueU64

/-- Specialization `encode<uint64_t, std::string, IP_ADDRESS>`: four iterations of the
field loop starting from an all-zero accumulator. -/
def encode_IP_ADDRESS (s : String) : Nat := ipLoop 4 0 s.toList

/-- The `struct tm` fields the date encoders can set. `struct tm date{}` is
zero-initialized; `tm_isdst = -1` asks `mktime` to consult the timezone
database, which this embedding folds into a single ambient offset. -/
structure Tm where
  sec : Nat
  min : Nat
  hour : Nat
  mday : Nat
  mon : Nat
  year : Int
  deriving DecidableEq

/-- The zero-initialized `struct tm date{}` of the date encoders. -/
def zeroTm : Tm := ⟨0, 0, 0, 0, 0, 0⟩

/-- One numeric `strptime` directive: skip leading whitespace (as glibc
does before a numeric conversion), read at most `w` digits, and require
the value within `[lo, hi]`; returns the value and the rest of the input,
or `none` when the directive fails to match. -/
def parseNum (w lo hi : Nat) (cs : List Char) : Option (Nat × List Char) :=
  let cs1 := cs.dropWhile isSpaceC
  let ds := (cs1.takeWhile isDigitC).take w
  if ds.isEmpty then none
  else
    let v := digitsVal 0 ds
    if lo ≤ v ∧ v ≤ hi then some (v, cs1.drop ds.length) else none

/-- A literal character in an `strptime` format: the next input character
must match it exactly. -/
def expectChar (c : Char) (cs : List Char) : Option (List Char) :=
  match cs with
  | [] => none
  | x :: rest => if x = c then some rest else none

/-- Model of `strptime(str, ..Ymd.., &date)` (format year-month-day with dashes) as
the `DATE` encoder uses it: directives matched before the first failure
update their `tm` fields, and the caller ignores the return value, so the
result is the (possibly partially updated) `tm`. `%Y` stores
`value - 1900` in `tm_year`; `%m` stores `value - 1`. -/
def strptimeYMD (cs : List Char) (t : Tm) : Tm :=
  match parseNum 4 0 9999 cs with
  | none => t
  | some (y, cs1) =>
    let t1 : Tm := { t with year := (y : Int) - 1900 }
    match expectChar '-' cs1 with
    | none => t1
    | some cs2 =>
      match parseNum 2 1 12 cs2 with
      | none => t1
      | some (m, cs3) =>
        let t2 : Tm := { t1 with mon := m - 1 }
        match expectChar '-' cs3 with
        | none => t2
        | some cs4 =>
          match parseNum 2 1 31 cs4 with
          | none => t2
          | some (d, _) => { t2 with mday := d }

/-- The POSIX `%y` two-digit year rule: 69-99 are 1900s (`tm_year = v`),
0-68 are 2000s (`tm_year = v + 100`). -/
def yearOfTwoDigit (v : Nat) : Int := if v ≤ 68 then (v : Int) + 100 else (v : Int)

/-- Model of `strptime(str, ..mdy.., &date)` (format month/day/two-digit-year with
slashes) as the `USDATE` encoder uses it; same partial-update convention
as `strptimeYMD`. -/
def strptimeMDY (cs : List Char) (t : Tm) : Tm :=
  match parseNum 2 1 12 cs with
  | none => t
  | some (m, cs1) =>
    let t1 : Tm := { t with mon := m - 1 }
    match expectChar '/' cs1 with
    | none => t1
    | some cs2 =>
      match parseNum 2 1 31 cs2 with
      | none => t1
      | some (d, cs3) =>
        let t2 : Tm := { t1 with mday := d }
        match expectChar '/' cs3 with
        | none => t2
        | some cs4 =>
          match parseNum 2 0 99 cs4 with
          | none => t2
          | some (y, _) => { t2 with year := yearOfTwoDigit y }

/-- Model of `strptime(str, ..YmdTHMS..)` (ISO date, a literal `T`, then
hour:minute:second) as the `DATE_TIME` encoder uses it; same
partial-update convention as `strptimeYMD`. -/
def strptimeYMDHMS (cs : List Char) (t : Tm) : Tm :=
  match parseNum 4 0 9999 cs with
  | none => t
  | some (y, cs1) =>
    let t1 : Tm := { t with year := (y : Int) - 1900 }
    match expectChar '-' cs1 with
    | none => t1
    | some cs2 =>
      match parseNum 2 1 12 cs2 with
      | none => t1
      | some (m, cs3) =>
        let t2 : Tm := { t1 with mon := m - 1 }
        match expectChar '-' cs3 with
        | none => t2
        | some cs4 =>
          match parseNum 2 1 31 cs4 with
          | none => t2
          | some (d, cs5) =>
            let t3 : Tm := { t2 with mday := d }
            match expectChar 'T' cs5 with
            | none => t3
            | some cs6 =>
              match parseNum 2 0 23 cs6 with
              | none => t3
              | some (hh, cs7) =>
                let t4 : Tm := { t3 with hour := hh }
                match expectChar ':' cs7 with
                | none => t4
                | some cs8 =>
                  match parseNum 2 0 59 cs8 with
                  | none => t4
                  | some (mi, cs9) =>
                    let t5 : Tm := { t4 with min := mi }
                    match expectChar ':' cs9 with
                    | none => t5
                    | some cs10 =>
                      match parseNum 2 0 60 cs10 with
                      | none => t5
                      | some (ss, _) => { t5 with sec := ss }

/-- Days from 1970-01-01 of the civil date (y, m, d) with `m` in 1..12 and
`d` a free-ranging day count (`tm_mday = 0` from a zero-initialized `tm`
normalizes to the last day of the previous month, exactly as `mktime`
normalizes it): the standard days-from-civil computation, with the day
offset `d - 1` added to the first of the month. -/
def daysFromCivil (y : Int) (m : Nat) (d : Int) : Int :=
  let yAdj : Int := if m ≤ 2 then y - 1 else y
  let era : Int := Int.fdiv yAdj 400
  let yoe : Nat := (yAdj - era * 400).toNat
  let mp : Nat := (m + 9) % 12
  let doe : Nat := yoe * 365 + yoe / 4 - yoe / 100 + (153 * mp + 2) / 5
  era * 146097 + doe - 719468 + (d - 1)

/-- Seconds from the epoch of a `tm` read as a civil (local) date-time,
before the timezone correction. `tm_mon` is normalized into a year carry
plus a month in 1..12 (the parsers only ever store 0..11). -/
def civilSecs (t : Tm) : Int :=
  daysFromCivil (1900 + t.year + (t.mon / 12 : Nat)) (t.mon % 12 + 1) (t.mday : Int)
      * 86400
    + t.hour * 3600 + t.min * 60 + t.sec

/-- Model of `mktime` under an ambient timezone environment `env`: the TZ
database maps the local civil time being converted to the UTC offset (in
seconds east) in effect at that time — daylight saving and historical
transitions make the offset date-dependent, which is why `env` is a
function of the civil time and not a constant (a fixed-offset zone is the
constant special case). With `tm_isdst = -1` the database alone decides
the offset. `mktime` interprets the `tm` as local civil time and
subtracts that offset. It is a plain C function: it never throws, so the
encoders' catch blocks are unreachable, and on a 64-bit `time_t` every
value the encoders build is representable (no -1 error return arises). -/
def mktimeModel (env : Int → Int) (t : Tm) : Int :=
  civilSecs t - env (civilSecs t)

/-- Bit pattern of an `int64_t`/`time_t` value `memcpy`-ed into a
`uint64_t`: the value modulo `2 ^ 64`. -/
def toU64 (x : Int) : Nat := (x % (2 ^ 64)).toNat

/-- Specialization `encode<uint64_t, std::string, DATE>` (`data_types.h`, lines 241-258):
`strptime` with the year-month-day format (return value ignored), then
`mktime` on the resulting `tm`; `env` is the process's timezone
environment that `mktime` consults. -/
def encode_DATE (env : Int → Int) (s : String) : Nat :=
  toU64 (mktimeModel env (strptimeYMD s.toList zeroTm))

/-- Specialization `encode<uint64_t, std::string, USDATE>` (`data_types.h`, lines
260-277): `strptime` with the month/day/year format, then `mktime`. -/
def encode_USDATE (env : Int → Int) (s : String) : Nat :=
  toU64 (mktimeModel env (strptimeMDY s.toList zeroTm))

/-- Specialization `encode<uint64_t, std::string, DATE_TIME>` (`data_types.h`, lines
279-296): `strptime` with the ISO date-time format, then `mktime`. -/
def encode_DATE_TIME (env : Int → Int) (s : String) : Nat :=
  toU64 (mktimeModel env (strptimeYMDHMS s.toList zeroTm))

/-- Modelled from the spec: the hashmap implementation
(`shad/data_structures/hashmap.h`) is not among the inspected sources —
only its exercise harness `hashmap_perf.cc` is. Spec §4.2: a local shard
stores `(Key, Value)` pairs; insert overwrites the value of a key already
present and otherwise adds the entry. -/
def localInsert {K V : Type} [DecidableEq K] : List (K × V) → K → V → List (K × V)
  | [], k, v => [(k, v)]
  | (k0, v0) :: t, k, v =>
    if k0 = k then (k0, v) :: t else (k0, v0) :: localInsert t k v

/-- Modelled from the spec (§4.2): shard lookup, `none` when the key is
absent. -/
def localLookup {K V : Type} [DecidableEq K] : List (K × V) → K → Option V
  | [], _ => none
  | (k0, v0) :: t, k => if k0 = k then some v0 else localLookup t k

/-- Modelled from the spec (§4.1): the deterministic key-to-locality
partition function, `hash(key) mod numLocalities`, identical on every
locality. -/
def partitionLoc {K : Type} (hash : K → Nat) (numLoc : Nat) (k : K) : Nat :=
  hash k % numLoc

/-- Modelled from the spec (§2, §3): the distributed map's global state —
a fixed set of localities `0 .. numLoc - 1` and one local shard per
locality, a shard holding only keys the partition function assigns to that
locality. -/
structure DMap (K V : Type) where
  numLoc : Nat
  shards : Nat → List (K × V)

/-- Modelled from the spec (§4.4): `Insert(k, v)` — route the entry to the
owning locality and insert into that locality's shard; the state of an
`AsyncInsert` at the point its `waitForCompletion` returns is the same
update, so both call shapes complete to this transition. -/
def dmapInsert {K V : Type} [DecidableEq K] (hash : K → Nat) (st : DMap K V)
    (k : K) (v : V) : DMap K V :=
  let tgt := partitionLoc hash st.numLoc k
  { st with shards := fun l => if l = tgt then localInsert (st.shards l) k v else st.shards l }

/-- Modelled from the spec (§4.4): a lookup issued on locality `caller` is
routed by the partition function to the owning locality and answered from
that locality's shard; the calling locality takes no other part. -/
def dmapLookup {K V : Type} [DecidableEq K] (hash : K → Nat) (st : DMap K V)
    (caller : Nat) (k : K) : Option V :=
  let tgt := partitionLoc hash st.numLoc k
  let _ := caller
  localLookup (st.shards tgt) k

/-- Modelled from the spec (§4.4, §6): `AsyncForEachKey` invokes the
caller-supplied function once per key stored in each locality's shard, on
every locality; the list below is the multiset of keys those invocations
visit, summed across all localities. -/
def dmapForEachKeys {K V : Type} (st : DMap K V) : List K :=
  (List.range st.numLoc).flatMap (fun l => (st.shards l).map (fun e => e.1))

/-- Modelled from the spec (§4.5): a completion handle is a counter pair
`{issued, completed}`. -/
structure Handle where
  issued : Nat
  completed : Nat
  deriving DecidableEq

/-- Modelled from the spec (§4.5): the two events a handle observes. -/
inductive HEvent where
  | issue
  | complete
  deriving DecidableEq

/-- Modelled from the spec (§4.5): issuing an operation increments
`issued`; each local or remote completion increments `completed`. -/
def hstep (h : Handle) : HEvent → Handle
  | .issue => { h with issued := h.issued + 1 }
  | .complete => { h with completed := h.completed + 1 }

/-- Modelled from the spec (§4.5): the handle state after a sequence of
events, starting from the empty handle. -/
def hrun (es : List HEvent) : Handle := es.foldl hstep ⟨0, 0⟩

/-- Number of issue events in a trace. -/
def countIssue (es : List HEvent) : Nat := es.countP (fun e => e = .issue)

/-- Number of completion events in a trace. -/
def countComplete (es : List HEvent) : Nat := es.countP (fun e => e = .complete)

/-- Modelled from the spec (§3, §4.5): a completion callback fires only
for an operation already dispatched, so a trace is valid when every
completion event occurs while `completed < issued`. -/
def validFrom : Nat → Nat → List HEvent → Bool
  | _, _, [] => true
  | i, c, .issue :: es => validFrom (i + 1) c es
  | i, c, .complete :: es => decide (c < i) && validFrom i (c + 1) es

/-- A valid event trace, starting from the empty handle. -/
def validTrace (es : List HEvent) : Bool := validFrom 0 0 es

/-- Modelled from the spec (§4.5): `waitForCompletion` returns exactly in
the Drained state, `completed == issued`. -/
def waitReturns (h : Handle) : Bool := h.completed = h.issued

/-- Modelled from the spec (§4.6): global state of a map with buffered
inserts — the shards, plus one pending buffer per (source locality,
target locality) pair. -/
structure BufMap (K V : Type) where
  numLoc : Nat
  shards : Nat → List (K × V)
  buffers : Nat → Nat → List (K × V)

/-- Modelled from the spec (§4.6): flush one (source, target) buffer —
apply its pending entries, in enqueue order, to the target locality's
shard, and empty it. -/
def flushBuffer {K V : Type} [DecidableEq K] (st : BufMap K V) (src tgt : Nat) :
    BufMap K V :=
  { st with
    shards := fun l =>
      if l = tgt then (st.buffers src tgt).foldl (fun sh e => localInsert sh e.1 e.2) (st.shards l)
      else st.shards l
    buffers := fun s t => if s = src ∧ t = tgt then [] else st.buffers s t }

/-- Modelled from the spec (§4.6): `BufferedAsyncInsert(k, v)` issued on
locality `caller` — append the entry to the buffer for the owning
locality; if the buffer reaches the configured capacity `cap`, it is
flushed and emptied. -/
def bufferedAsyncInsert {K V : Type} [DecidableEq K] (hash : K → Nat) (cap : Nat)
    (st : BufMap K V) (caller : Nat) (k : K) (v : V) : BufMap K V :=
  let tgt := partitionLoc hash st.numLoc k
  let st1 : BufMap K V :=
    { st with
      buffers := fun s t =>
        if s = caller ∧ t = tgt then st.buffers s t ++ [(k, v)] else st.buffers s t }
  if cap ≤ (st1.buffers caller tgt).length then flushBuffer st1 caller tgt else st1

/-- Modelled from the spec (§4.6): `WaitForBufferedInsert` flushes every
(source, target) buffer of the map and returns once the flushed batch
inserts have completed, i.e. once every pending entry has been applied to
its target shard. -/
def waitForBufferedInsert {K V : Type} [DecidableEq K] (st : BufMap K V) : BufMap K V :=
  (((List.range st.numLoc).flatMap (fun s => (List.range st.numLoc).map (fun t => (s, t))))).foldl
    (fun acc p => flushBuffer acc p.1 p.2) st

/-- Modelled from the spec (§4.4): a lookup on a buffered map reads only
the owning locality's shard — never the pending buffers. -/
def bufLookup {K V : Type} [DecidableEq K] (hash : K → Nat) (st : BufMap K V)
    (caller : Nat) (k : K) : Option V :=
  let tgt := partitionLoc hash st.numLoc k
  let _ := caller
  localLookup (st.shards tgt) k

/-- Modelled from the spec (§4.3, §7): the map-layer error taxonomy
relevant to registry operations. -/
inductive MapError where
  | NotFound
  deriving DecidableEq

/-- Modelled from the spec (§4.3, §7): `Destroy(id)` against the global
registry (an association of live GlobalObjectIDs to their registered
instance data): a live id has its entry removed; an unknown or
already-destroyed id fails with `NotFound`, and a failing call changes no
registry state. -/
def regDestroy {A : Type} (reg : List (Nat × A)) (oid : Nat) :
    Except MapError Unit × List (Nat × A) :=
  match localLookup reg oid with
  | some _ => (Except.ok (), reg.filter (fun p => p.1 ≠ oid))
  | none => (Except.error MapError.NotFound, reg)

/-! ### List helper lemmas -/

theorem takeWhile_all {α : Type} (p : α → Bool) :
    ∀ l : List α, (∀ x ∈ l, p x = true) → l.takeWhile p = l
  | [], _ => rfl
  | a :: t, h => by
    have ha : p a = true := h a (List.mem_cons_self a t)
    have ht := takeWhile_all p t (fun x hx => h x (List.mem_cons_of_mem a hx))
    simp [List.takeWhile_cons, ha, ht]

theorem takeWhile_append_stop {α : Type} (p : α → Bool) (y : α) (ys : List α)
    (hy : p y = false) :
    ∀ xs : List α, (∀ x ∈ xs, p x = true) →
      (xs ++ y :: ys).takeWhile p = xs
  | [], _ => by simp [List.takeWhile_cons, hy]
  | a :: t, h => by
    have ha : p a = true := h a (List.mem_cons_self a t)
    have ht := takeWhile_append_stop p y ys hy t
      (fun x hx => h x (List.mem_cons_of_mem a hx))
    simp [List.takeWhile_cons, ha, ht]

theorem dropWhile_append_stop {α : Type} (p : α → Bool) (y : α) (ys : List α)
    (hy : p y = false) :
    ∀ xs : List α, (∀ x ∈ xs, p x = true) →
      (xs ++ y :: ys).dropWhile p = y :: ys
  | [], _ => by simp [List.dropWhile_cons, hy]
  | a :: t, h => by
    have ha : p a = true := h a (List.mem_cons_self a t)
    have ht := dropWhile_append_stop p y ys hy t
      (fun x hx => h x (List.mem_cons_of_mem a hx))
    simp [List.dropWhile_cons, ha, ht]

theorem dropWhile_all {α : Type} (p : α → Bool) :
    ∀ l : List α, (∀ x ∈ l, p x = true) → l.dropWhile p = []
  | [], _ => rfl
  | a :: t, h => by
    have ha : p a = true := h a (List.mem_cons_self a t)
    have ht := dropWhile_all p t (fun x hx => h x (List.mem_cons_of_mem a hx))
    simp [List.dropWhile_cons, ha, ht]

theorem digitsVal_append (xs ys : List Char) :
    ∀ acc : Nat, digitsVal acc (xs ++ ys) = digitsVal (digitsVal acc xs) ys := by
  induction xs with
  | nil => intro acc; rfl
  | cons c t ih =>
    intro acc
    rw [List.cons_append]
    show digitsVal (acc * 10 + digitVal c) (t ++ ys) = _
    rw [ih]
    rfl

/-! ### The CHARS codec (claim C7) -/

theorem pack_lt (l : List Nat) (h : ∀ b ∈ l, b < 256) :
    l.foldr (fun b acc => b + 256 * acc) 0 < 256 ^ l.length := by
  induction l with
  | nil => simp
  | cons b t ih =>
    have hb : b < 256 := h b (List.mem_cons_self b t)
    have ht := ih (fun x hx => h x (List.mem_cons_of_mem b hx))
    simp only [List.foldr_cons, List.length_cons, pow_succ]
    calc b + 256 * (t.foldr (fun b acc => b + 256 * acc) 0)
        < 256 * (t.foldr (fun b acc => b + 256 * acc) 0 + 1) := by omega
      _ ≤ 256 ^ t.length * 256 := by
          rw [mul_comm]
          exact Nat.mul_le_mul_right 256 (by omega)

theorem wordByte_foldr (l : List Nat) (h : ∀ b ∈ l, b < 256) :
    ∀ i : Nat, wordByte (l.foldr (fun b acc => b + 256 * acc) 0) i = l.getD i 0 := by
  induction l with
  | nil => intro i; simp [wordByte, Nat.zero_div]
  | cons b t ih =>
    intro i
    have hb : b < 256 := h b (List.mem_cons_self b t)
    have ht : ∀ x ∈ t, x < 256 := fun x hx => h x (List.mem_cons_of_mem b hx)
    cases i with
    | zero =>
      simp only [wordByte, List.foldr_cons, pow_zero, Nat.div_one, List.getD_cons_zero]
      omega
    | succ i =>
      have hdiv : (b + 256 * t.foldr (fun b acc => b + 256 * acc) 0) / 256 ^ (i + 1)
          = t.foldr (fun b acc => b + 256 * acc) 0 / 256 ^ i := by
        rw [pow_succ, mul_comm (256 ^ i) 256, ← Nat.div_div_eq_div_mul]
        congr 1
        omega
      simp only [wordByte, List.foldr_cons, hdiv, List.getD_cons_succ]
      exact ih ht i

theorem getD_lt_256 (s : List Nat) (h : ∀ b ∈ s, b < 256) (i : Nat) :
    s.getD i 0 < 256 := by
  rcases Nat.lt_or_ge i s.length with hi | hi
  · rw [List.getD_eq_getElem s 0 hi]
    exact h _ (List.getElem_mem hi)
  · rw [List.getD_eq_default s 0 hi]
    omega

theorem takeWhile_getD :
    ∀ (n : Nat) (s : List Nat), (∀ b ∈ s, b ≠ 0) →
      (((List.range n).map (fun i => s.getD i 0)) ++ [0]).takeWhile (fun b => b ≠ 0)
        = s.take n
  | n, [], _ => by
    have hall : ∀ i, ([] : List Nat).getD i 0 = 0 := fun i => rfl
    cases n with
    | zero => simp
    | succ m =>
      rw [List.range_succ_eq_map]
      simp [List.takeWhile_cons]
  | 0, b :: t, _ => by simp [List.takeWhile_cons]
  | n + 1, b :: t, h => by
    have hb : b ≠ 0 := h b (List.mem_cons_self b t)
    have ht : ∀ x ∈ t, x ≠ 0 := fun x hx => h x (List.mem_cons_of_mem b hx)
    rw [List.range_succ_eq_map]
    simp only [List.map_cons, List.map_map, List.getD_cons_zero, List.cons_append,
      List.takeWhile_cons]
    have hcomp : ((fun i => (b :: t).getD i 0) ∘ Nat.succ) = fun i => t.getD i 0 := by
      funext i
      simp [Function.comp, List.getD_cons_succ]
    rw [hcomp]
    simp only [hb, decide_not, List.take_succ_cons]
    have := takeWhile_getD n t ht
    simp only [decide_not] at this
    rw [this]
    simp

theorem getD_map_range (f : Nat → Nat) (n i : Nat) :
    ((List.range n).map f).getD i 0 = if i < n then f i else 0 := by
  by_cases hi : i < n
  · have hlen : i < ((List.range n).map f).length := by simp [hi]
    rw [List.getD_eq_getElem _ 0 hlen, if_pos hi]
    simp
  · rw [List.getD_eq_default, if_neg hi]
    simp
    omega

/-- C7: for every NUL-free byte string `s`, decoding the `CHARS` encoding
of `s` yields the first `min (|s|, 7)` bytes of `s`; in particular the
round-trip is the identity for `|s| ≤ 7`, and the eighth byte of the
encoded `uint64_t` is always the NUL terminator. -/
theorem chars_decode_encode (s : List Nat) (hb : ∀ b ∈ s, b < 256)
    (hz : ∀ b ∈ s, b ≠ 0) :
    decode_CHARS (encode_CHARS s) = s.take 7 ∧
    wordByte (encode_CHARS s) 7 = 0 ∧
    (s.length ≤ 7 → decode_CHARS (encode_CHARS s) = s) := by
  have hL : ∀ x ∈ (List.range 7).map (cstrByte s), x < 256 := by
    intro x hx
    rcases List.mem_map.mp hx with ⟨i, _, rfl⟩
    exact getD_lt_256 s hb i
  have hw : ∀ i, wordByte (encode_CHARS s) i
      = ((List.range 7).map (cstrByte s)).getD i 0 :=
    wordByte_foldr _ hL
  have hwi : ∀ i, wordByte (encode_CHARS s) i = if i < 7 then s.getD i 0 else 0 := by
    intro i
    rw [hw i]
    exact getD_map_range (cstrByte s) 7 i
  have h7 : wordByte (encode_CHARS s) 7 = 0 := by rw [hwi 7]; simp
  have hsplit : (List.range 8).map (wordByte (encode_CHARS s))
      = (List.range 7).map (fun i => s.getD i 0) ++ [0] := by
    have : List.range 8 = List.range 7 ++ [7] := by rfl
    rw [this, List.map_append]
    congr 1
    · apply List.map_congr_left
      intro i hi
      have hi7 : i < 7 := List.mem_range.mp hi
      rw [hwi i, if_pos hi7]
    · simp [h7]
  have hmain : decode_CHARS (encode_CHARS s) = s.take 7 := by
    unfold decode_CHARS
    rw [hsplit]
    exact takeWhile_getD 7 s hz
  refine ⟨hmain, h7, fun hlen => ?_⟩
  rw [hmain]
  exact List.take_of_length_le hlen

/-- C7 witness: the byte string "hi" round-trips through the CHARS codec. -/
theorem chars_decode_encode_case :
    decode_CHARS (encode_CHARS [104, 105]) = [104, 105] :=
  (chars_decode_encode [104, 105] (by decide) (by decide)).2.2 (by decide)

/-! ### The IP_ADDRESS encoder (claim C8) -/

theorem ipLoop_step (n value : Nat) (f rest : List Char)
    (hf : ∀ ch ∈ f, ch ≠ '.') :
    ipLoop (n + 1) value (f ++ '.' :: rest) =
      match stoullChars f with
      | none => kNullValueU64
      | some val =>
        if val < 256 then ipLoop n ((value * 256 + val) % 2 ^ 64) rest
        else kNullValueU64 := by
  have hfb : ∀ ch ∈ f, (fun c => decide (c ≠ '.')) ch = true := by
    intro ch hch
    simp [hf ch hch]
  have hdot : (fun c => decide (c ≠ '.')) '.' = false := by simp
  have htake : (f ++ '.' :: rest).takeWhile (fun c => decide (c ≠ '.')) = f :=
    takeWhile_append_stop _ '.' rest hdot f hfb
  have hdrop : (f ++ '.' :: rest).dropWhile (fun c => decide (c ≠ '.')) = '.' :: rest :=
    dropWhile_append_stop _ '.' rest hdot f hfb
  show (let field := (f ++ '.' :: rest).takeWhile (fun c => decide (c ≠ '.'))
        let rest2 := (f ++ '.' :: rest).dropWhile (fun c => decide (c ≠ '.'))
        match stoullChars field with
        | none => kNullValueU64
        | some val =>
          if val < 256 then ipLoop n ((value * 256 + val) % 2 ^ 64) (rest2.drop 1)
          else kNullValueU64) = _
  rw [htake, hdrop]
  rfl

theorem ipLoop_last (value : Nat) (f : List Char) (hf : ∀ ch ∈ f, ch ≠ '.') :
    ipLoop 1 value f =
      match stoullChars f with
      | none => kNullValueU64
      | some val =>
        if val < 256 then (value * 256 + val) % 2 ^ 64
        else kNullValueU64 := by
  have hfb : ∀ ch ∈ f, (fun c => decide (c ≠ '.')) ch = true := by
    intro ch hch
    simp [hf ch hch]
  have htake : f.takeWhile (fun c => decide (c ≠ '.')) = f := takeWhile_all _ f hfb
  have hdrop : f.dropWhile (fun c => decide (c ≠ '.')) = [] := dropWhile_all _ f hfb
  show (let field := f.takeWhile (fun c => decide (c ≠ '.'))
        let rest2 := f.dropWhile (fun c => decide (c ≠ '.'))
        match stoullChars field with
        | none => kNullValueU64
        | some val =>
          if val < 256 then ipLoop 0 ((value * 256 + val) % 2 ^ 64) (rest2.drop 1)
          else kNullValueU64) = _
  rw [htake, hdrop]
  rfl

/-- A dotted-quad field on which the encoder bails out: `std::stoull`
throws, or the parsed value is 256 or more. -/
def ipFieldBad (f : String) : Prop :=
  stoullChars f.toList = none ∨ ∃ v, stoullChars f.toList = some v ∧ 256 ≤ v

theorem toList_ip_glue (a b c d : String) :
    (a ++ "." ++ b ++ "." ++ c ++ "." ++ d).toList
      = a.toList ++ '.' :: (b.toList ++ '.' :: (c.toList ++ '.' :: d.toList)) := by
  show (a ++ "." ++ b ++ "." ++ c ++ "." ++ d).data
      = a.data ++ '.' :: (b.data ++ '.' :: (c.data ++ '.' :: d.data))
  simp [String.data_append]

/-- C8: on a dotted-quad string `a.b.c.d` whose four fields contain no
further dots, the IP_ADDRESS encoding returns
`va * 2^24 + vb * 2^16 + vc * 2^8 + vd` when every field parses below 256,
and the null sentinel as soon as some field (scanned left to right) fails
`std::stoull` or parses to 256 or more. -/
theorem ip_encode (a b c d : String)
    (hA : ∀ ch ∈ a.toList, ch ≠ '.') (hB : ∀ ch ∈ b.toList, ch ≠ '.')
    (hC : ∀ ch ∈ c.toList, ch ≠ '.') (hD : ∀ ch ∈ d.toList, ch ≠ '.') :
    (∀ va vb vc vd : Nat,
      stoullChars a.toList = some va → va ≤ 255 →
      stoullChars b.toList = some vb → vb ≤ 255 →
      stoullChars c.toList = some vc → vc ≤ 255 →
      stoullChars d.toList = some vd → vd ≤ 255 →
      encode_IP_ADDRESS (a ++ "." ++ b ++ "." ++ c ++ "." ++ d)
        = va * 2 ^ 24 + vb * 2 ^ 16 + vc * 2 ^ 8 + vd) ∧
    ((ipFieldBad a ∨ ipFieldBad b ∨ ipFieldBad c ∨ ipFieldBad d) →
      encode_IP_ADDRESS (a ++ "." ++ b ++ "." ++ c ++ "." ++ d) = kNullValueU64) := by
  have hglue : encode_IP_ADDRESS (a ++ "." ++ b ++ "." ++ c ++ "." ++ d)
      = ipLoop 4 0 (a.toList ++ '.' :: (b.toList ++ '.' :: (c.toList ++ '.' :: d.toList))) := by
    unfold encode_IP_ADDRESS
    rw [toList_ip_glue]
  constructor
  · intro va vb vc vd hva hva2 hvb hvb2 hvc hvc2 hvd hvd2
    rw [hglue, ipLoop_step 3 0 _ _ hA, hva]
    dsimp only
    rw [if_pos (by omega), Nat.mod_eq_of_lt (by omega)]
    rw [ipLoop_step 2 _ _ _ hB, hvb]
    dsimp only
    rw [if_pos (by omega), Nat.mod_eq_of_lt (by omega)]
    rw [ipLoop_step 1 _ _ _ hC, hvc]
    dsimp only
    rw [if_pos (by omega), Nat.mod_eq_of_lt (by omega)]
    rw [ipLoop_last _ _ hD, hvd]
    dsimp only
    rw [if_pos (by omega), Nat.mod_eq_of_lt (by omega)]
    ring
  · intro hbad
    rw [hglue, ipLoop_step 3 0 _ _ hA]
    rcases h1 : stoullChars a.toList with _ | va
    · rfl
    · dsimp only
      rcases Nat.lt_or_ge va 256 with hlt1 | hge1
      · rw [if_pos hlt1]
        rw [ipLoop_step 2 _ _ _ hB]
        rcases h2 : stoullChars b.toList with _ | vb
        · rfl
        · dsimp only
          rcases Nat.lt_or_ge vb 256 with hlt2 | hge2
          · rw [if_pos hlt2]
            rw [ipLoop_step 1 _ _ _ hC]
            rcases h3 : stoullChars c.toList with _ | vc
            · rfl
            · dsimp only
              rcases Nat.lt_or_ge vc 256 with hlt3 | hge3
              · rw [if_pos hlt3]
                rw [ipLoop_last _ _ hD]
                rcases h4 : stoullChars d.toList with _ | vd
                · rfl
                · dsimp only
                  rcases Nat.lt_or_ge vd 256 with hlt4 | hge4
                  · exfalso
                    rcases hbad with hb1 | hb1 | hb1 | hb1 <;>
                      rcases hb1 with he | ⟨v, hv, hvge⟩ <;>
                      simp_all <;> omega
                  · rw [if_neg (by omega)]
              · rw [if_neg (by omega)]
          · rw [if_neg (by omega)]
      · rw [if_neg (by omega)]

/-- C8 witness: the dotted quad 192.168.0.1 encodes to 3232235521. -/
theorem ip_encode_case :
    encode_IP_ADDRESS ("192" ++ "." ++ "168" ++ "." ++ "0" ++ "." ++ "1")
      = 3232235521 := by
  have h := (ip_encode "192" "168" "0" "1" (by decide) (by decide) (by decide)
      (by decide)).1 192 168 0 1 (by decide) (by decide) (by decide) (by decide)
      (by decide) (by decide) (by decide) (by decide)
  rw [h]
  norm_num

/-! ### The UINT codec (claim C6) -/

theorem digitChar_props (d : Nat) (h : d < 10) :
    digitVal (Char.ofNat (48 + d)) = d ∧
    isDigitC (Char.ofNat (48 + d)) = true ∧
    isSpaceC (Char.ofNat (48 + d)) = false ∧
    Char.ofNat (48 + d) ≠ '-' ∧ Char.ofNat (48 + d) ≠ '+' := by
  interval_cases d <;>
    exact ⟨by decide, by decide, by decide, by decide, by decide⟩

theorem natDigitsAux_lt : ∀ (fuel n d : Nat), d ∈ natDigitsAux fuel n → d < 10
  | 0, _, _, h => by simp [natDigitsAux] at h
  | fuel + 1, n, d, h => by
    unfold natDigitsAux at h
    by_cases h0 : n = 0
    · rw [if_pos h0] at h
      simp at h
    · rw [if_neg h0] at h
      rcases List.mem_cons.mp h with h1 | h1
      · omega
      · exact natDigitsAux_lt fuel (n / 10) d h1

theorem natToDecimal_props (n : Nat) :
    ∀ c ∈ natToDecimal n,
      isDigitC c = true ∧ isSpaceC c = false ∧ c ≠ '-' ∧ c ≠ '+' := by
  intro c hc
  unfold natToDecimal at hc
  by_cases h0 : n = 0
  · rw [if_pos h0] at hc
    have : c = Char.ofNat 48 := by simpa using hc
    subst this
    exact ⟨by decide, by decide, by decide, by decide⟩
  · rw [if_neg h0] at hc
    rcases List.mem_map.mp hc with ⟨d, hd, rfl⟩
    have hd10 : d < 10 := natDigitsAux_lt n n d (List.mem_reverse.mp hd)
    exact ⟨(digitChar_props d hd10).2.1, (digitChar_props d hd10).2.2.1,
      (digitChar_props d hd10).2.2.2.1, (digitChar_props d hd10).2.2.2.2⟩

theorem natToDecimal_ne_nil (n : Nat) : natToDecimal n ≠ [] := by
  unfold natToDecimal
  by_cases h0 : n = 0
  · rw [if_pos h0]
    simp
  · rw [if_neg h0]
    rcases n with _ | m
    · omega
    · unfold natDigitsAux
      rw [if_neg h0]
      simp

theorem digitsVal_natDigitsAux (fuel : Nat) :
    ∀ (n acc : Nat), n ≤ fuel →
      digitsVal acc ((natDigitsAux fuel n).reverse.map (fun d => Char.ofNat (48 + d)))
        = acc * 10 ^ (natDigitsAux fuel n).length + n := by
  induction fuel with
  | zero =>
    intro n acc hle
    have h0 : n = 0 := by omega
    subst h0
    rw [show natDigitsAux 0 0 = [] from rfl]
    show acc = acc * 10 ^ 0 + 0
    simp
  | succ fuel ih =>
    intro n acc hle
    by_cases h0 : n = 0
    · subst h0
      rw [show natDigitsAux (fuel + 1) 0 = [] from rfl]
      show acc = acc * 10 ^ 0 + 0
      simp
    · have hrec : n / 10 ≤ fuel := by
        have := Nat.div_lt_self (Nat.pos_of_ne_zero h0) (by omega : 1 < 10)
        omega
      have hstep : natDigitsAux (fuel + 1) n = n % 10 :: natDigitsAux fuel (n / 10) := by
        rw [natDigitsAux, if_neg h0]
      have hmod : digitVal (Char.ofNat (48 + n % 10)) = n % 10 :=
        (digitChar_props (n % 10) (by omega)).1
      have hsing : ∀ a : Nat,
          digitsVal a ([n % 10].map (fun d => Char.ofNat (48 + d))) = a * 10 + n % 10 := by
        intro a
        show a * 10 + digitVal (Char.ofNat (48 + n % 10)) = a * 10 + n % 10
        rw [hmod]
      rw [hstep, List.reverse_cons, List.map_append, digitsVal_append,
        ih (n / 10) acc hrec, hsing, List.length_cons, pow_succ]
      have hdm : n / 10 * 10 + n % 10 = n := by omega
      calc (acc * 10 ^ (natDigitsAux fuel (n / 10)).length + n / 10) * 10 + n % 10
          = acc * (10 ^ (natDigitsAux fuel (n / 10)).length * 10)
            + (n / 10 * 10 + n % 10) := by ring
        _ = acc * (10 ^ (natDigitsAux fuel (n / 10)).length * 10) + n := by rw [hdm]

theorem stoullChars_natToDecimal (n : Nat) (h : n < 2 ^ 64) :
    stoullChars (natToDecimal n) = some n := by
  have hprops := natToDecimal_props n
  obtain ⟨c0, rest, hcr⟩ : ∃ c0 rest, natToDecimal n = c0 :: rest := by
    rcases hl : natToDecimal n with _ | ⟨c0, rest⟩
    · exact absurd hl (natToDecimal_ne_nil n)
    · exact ⟨c0, rest, rfl⟩
  have h0 := hprops c0 (hcr ▸ List.mem_cons_self c0 rest)
  have hval : digitsVal 0 (natToDecimal n) = n := by
    unfold natToDecimal
    by_cases hz : n = 0
    · rw [if_pos hz, hz]
      decide
    · rw [if_neg hz]
      have := digitsVal_natDigitsAux n n 0 (Nat.le_refl n)
      simpa using this
  have e1 : (natToDecimal n).dropWhile isSpaceC = natToDecimal n := by
    rw [hcr, List.dropWhile_cons]
    simp [h0.2.1]
  have e2 : stripSign (natToDecimal n) = (false, natToDecimal n) := by
    rw [hcr]
    show (if c0 = '-' then ((true : Bool), rest)
          else if c0 = '+' then ((false : Bool), rest)
          else ((false : Bool), c0 :: rest)) = ((false : Bool), c0 :: rest)
    rw [if_neg h0.2.2.1, if_neg h0.2.2.2]
  have e3 : (natToDecimal n).takeWhile isDigitC = natToDecimal n :=
    takeWhile_all isDigitC _ (fun x hx => (hprops x hx).1)
  have e4 : (natToDecimal n).isEmpty = false := by
    rw [hcr]
    rfl
  unfold stoullChars
  dsimp only
  rw [e1, e2]
  dsimp only
  rw [e3, e4, hval]
  simp only [Bool.false_eq_true, if_false]
  rw [if_neg (by omega : ¬2 ^ 64 - 1 < n)]

theorem encode_UINT_natToDecimal (n : Nat) (h : n < 2 ^ 64) :
    encode_UINT (String.mk (natToDecimal n)) = n := by
  unfold encode_UINT
  rw [show (String.mk (natToDecimal n)).toList = natToDecimal n from rfl]
  rw [stoullChars_natToDecimal n h]

/-- C6 (amended): `kNullValue<uint64_t>` is `2 ^ 63 - 1`, which is also the
encoding of the legitimately parseable input "9223372036854775807"; the
sentinel decodes to the empty string; and the UINT encode/decode
round-trip is the identity on the canonical decimal string of every
`n < 2 ^ 64` except exactly the sentinel value `n = 2 ^ 63 - 1` — not, as
stated, exactly the values below the sentinel, because canonical decimals
above the sentinel (still within `uint64_t` range) also round-trip. -/
theorem uint_roundtrip (n : Nat) (h : n < 2 ^ 64) :
    kNullValueU64 = 2 ^ 63 - 1 ∧
    encode_UINT (String.mk (natToDecimal (2 ^ 63 - 1))) = kNullValueU64 ∧
    decode_UINT kNullValueU64 = "" ∧
    (decode_UINT (encode_UINT (String.mk (natToDecimal n))) = String.mk (natToDecimal n)
      ↔ n ≠ kNullValueU64) := by
  refine ⟨rfl, ?_, ?_, ?_⟩
  · rw [encode_UINT_natToDecimal (2 ^ 63 - 1) (by norm_num)]
    rfl
  · unfold decode_UINT
    rw [if_pos rfl]
  · rw [encode_UINT_natToDecimal n h]
    unfold decode_UINT
    constructor
    · intro heq hn
      rw [if_pos hn] at heq
      exact natToDecimal_ne_nil n (by
        have : (String.mk (natToDecimal n)).data = ("" : String).data := by rw [← heq]
        simpa using this.symm)
    · intro hn
      rw [if_neg hn]

/-- C6 witness: the canonical decimal of 41 round-trips through the UINT
codec. -/
theorem uint_roundtrip_case :
    decode_UINT (encode_UINT (String.mk (natToDecimal 41))) = String.mk (natToDecimal 41) :=
  (uint_roundtrip 41 (by norm_num)).2.2.2.mpr (by decide)

/-- C6 counterexample: the canonical decimal of `2 ^ 63` — a value not
below the sentinel — also round-trips through the UINT codec, so the
round-trip is not the identity "exactly below the sentinel value". -/
theorem uint_roundtrip_above_sentinel_value :
    decode_UINT (encode_UINT (String.mk (natToDecimal (2 ^ 63))))
        = String.mk (natToDecimal (2 ^ 63)) ∧
      ¬(2 ^ 63 < kNullValueU64) := by
  constructor
  · rw [encode_UINT_natToDecimal (2 ^ 63) (by norm_num)]
    unfold decode_UINT
    rw [if_neg (by decide)]
  · decide

/-! ### The date encoders (claims C1 and C5) -/

/-- C1 (evaluation of the code at the failing input): the DATE encoder
maps the unparseable input "garbage" not to `kNullValue<uint64_t>` but to
the `mktime` image of the zero-initialized `tm` — local 1899-12-31
00:00:00, i.e. `-2209075200 - offset` as a `uint64_t` bit pattern, for
any timezone environment whose offset at that civil time is at most one
day in magnitude: `strptime`'s failure return is ignored and `mktime`, a
plain C function, never throws, so the encoder's catch block cannot
fire. -/
theorem encode_DATE_unparseable_not_sentinel (env : Int → Int)
    (h1 : -86400 ≤ env (-2209075200)) (h2 : env (-2209075200) ≤ 86400) :
    encode_DATE env "garbage" = toU64 (-2209075200 - env (-2209075200)) ∧
    encode_DATE env "garbage" ≠ kNullValueU64 := by
  have hstr : strptimeYMD ("garbage".toList) zeroTm = zeroTm := by rfl
  have hcs : civilSecs zeroTm = -2209075200 := by decide
  have heq : encode_DATE env "garbage" = toU64 (-2209075200 - env (-2209075200)) := by
    unfold encode_DATE mktimeModel
    rw [hstr, hcs]
  refine ⟨heq, ?_⟩
  rw [heq]
  unfold toU64 kNullValueU64
  rw [show ((2 : Int) ^ 64) = 18446744073709551616 from by norm_num]
  rw [show ((2 : Nat) ^ 63 - 1 : Nat) = 9223372036854775807 from by norm_num]
  omega

/-- C1 witness: under the UTC environment (offset 0 at every instant),
encoding the unparseable date "garbage" does not produce the null
sentinel. -/
theorem encode_DATE_unparseable_case :
    encode_DATE (fun _ => 0) "garbage" ≠ kNullValueU64 :=
  (encode_DATE_unparseable_not_sentinel (fun _ => 0) (by norm_num) (by norm_num)).2

/-- C5 counterexample: the DATE encoding of "2020-01-15" differs between
the UTC environment and a fixed-offset environment one hour east of UTC,
so the encoders are not independent of the ambient environment `mktime`
consults. -/
theorem encode_DATE_tz_dependent :
    encode_DATE (fun _ => 0) "2020-01-15"
      ≠ encode_DATE (fun _ => 3600) "2020-01-15" := by decide

/-- C5 (amended): every encode specialization is deterministic given its
input string and the process's timezone environment — the non-date
specializations take no environment input at all, and the
DATE/USDATE/DATE_TIME encoders read the environment only at the civil
time their input parses to, so two environments that assign the same
offset to that civil time encode the input identically (they need not
agree anywhere else). -/
theorem encode_date_env_local (s : String) (env1 env2 : Int → Int)
    (hymd : env1 (civilSecs (strptimeYMD s.toList zeroTm))
      = env2 (civilSecs (strptimeYMD s.toList zeroTm)))
    (hmdy : env1 (civilSecs (strptimeMDY s.toList zeroTm))
      = env2 (civilSecs (strptimeMDY s.toList zeroTm)))
    (hhms : env1 (civilSecs (strptimeYMDHMS s.toList zeroTm))
      = env2 (civilSecs (strptimeYMDHMS s.toList zeroTm))) :
    encode_DATE env1 s = encode_DATE env2 s ∧
    encode_USDATE env1 s = encode_USDATE env2 s ∧
    encode_DATE_TIME env1 s = encode_DATE_TIME env2 s := by
  refine ⟨?_, ?_, ?_⟩
  · unfold encode_DATE mktimeModel
    rw [hymd]
  · unfold encode_USDATE mktimeModel
    rw [hmdy]
  · unfold encode_DATE_TIME mktimeModel
    rw [hhms]

/-- C5 amended-claim witness: the UTC environment and an environment that
differs from it only at an instant none of the three formats parse
"2020-01-15" to agree on that date's encodings, for all three formats,
even though the two environments are not equal as functions. -/
theorem encode_date_env_local_case :
    encode_DATE (fun _ => 0) "2020-01-15"
        = encode_DATE (fun c => if c = 42 then 3600 else 0) "2020-01-15" ∧
      encode_USDATE (fun _ => 0) "2020-01-15"
        = encode_USDATE (fun c => if c = 42 then 3600 else 0) "2020-01-15" ∧
      encode_DATE_TIME (fun _ => 0) "2020-01-15"
        = encode_DATE_TIME (fun c => if c = 42 then 3600 else 0) "2020-01-15" :=
  encode_date_env_local "2020-01-15" (fun _ => 0) (fun c => if c = 42 then 3600 else 0)
    (by decide) (by decide) (by decide)

/-! ### The distributed map model (claims C2, C3, C9, C10, C4) -/

theorem localLookup_localInsert {K V : Type} [DecidableEq K] :
    ∀ (l : List (K × V)) (k : K) (v : V),
      localLookup (localInsert l k v) k = some v
  | [], k, v => by
    show localLookup [(k, v)] k = some v
    show (if k = k then some v else localLookup [] k) = some v
    rw [if_pos rfl]
  | (k0, v0) :: t, k, v => by
    by_cases h : k0 = k
    · show localLookup (if k0 = k then (k0, v) :: t else (k0, v0) :: localInsert t k v) k
        = some v
      rw [if_pos h]
      show (if k0 = k then some v else localLookup t k) = some v
      rw [if_pos h]
    · show localLookup (if k0 = k then (k0, v) :: t else (k0, v0) :: localInsert t k v) k
        = some v
      rw [if_neg h]
      show (if k0 = k then some v0 else localLookup (localInsert t k v) k) = some v
      rw [if_neg h]
      exact localLookup_localInsert t k v

theorem localLookup_localInsert_ne {K V : Type} [DecidableEq K] (k k0 : K) (hne : k0 ≠ k) :
    ∀ (l : List (K × V)) (v0 : V),
      localLookup (localInsert l k0 v0) k = localLookup l k
  | [], v0 => by
    show (if k0 = k then some v0 else localLookup [] k) = localLookup [] k
    rw [if_neg hne]
  | (k1, v1) :: t, v0 => by
    by_cases h : k1 = k0
    · show localLookup (if k1 = k0 then (k1, v0) :: t else (k1, v1) :: localInsert t k0 v0) k
        = localLookup ((k1, v1) :: t) k
      rw [if_pos h]
      show (if k1 = k then some v0 else localLookup t k)
        = if k1 = k then some v1 else localLookup t k
      rw [if_neg (h ▸ hne), if_neg (h ▸ hne)]
    · show localLookup (if k1 = k0 then (k1, v0) :: t else (k1, v1) :: localInsert t k0 v0) k
        = localLookup ((k1, v1) :: t) k
      rw [if_neg h]
      show (if k1 = k then some v1 else localLookup (localInsert t k0 v0) k)
        = if k1 = k then some v1 else localLookup t k
      rw [localLookup_localInsert_ne k k0 hne t v0]

/-- C2: for every key and value, once `Insert(k, v)` has completed (and
likewise once an `AsyncInsert(k, v)`'s `waitForCompletion` has returned,
which completes to the same shard update), a lookup for `k` issued from
any locality is routed to the owning locality and returns `v`. -/
theorem insert_lookup {K V : Type} [DecidableEq K] (hash : K → Nat)
    (st : DMap K V) (k : K) (v : V) (caller : Nat) :
    dmapLookup hash (dmapInsert hash st k v) caller k = some v := by
  unfold dmapLookup dmapInsert
  dsimp only
  rw [if_pos rfl]
  exact localLookup_localInsert (st.shards (partitionLoc hash st.numLoc k)) k v

theorem localLookup_filter_out {K V : Type} [DecidableEq K] (k : K) :
    ∀ l : List (K × V), localLookup (l.filter (fun p => p.1 ≠ k)) k = none
  | [] => rfl
  | (k0, v0) :: t => by
    rw [List.filter_cons]
    by_cases h : k0 = k
    · rw [if_neg (by simp [h])]
      exact localLookup_filter_out k t
    · rw [if_pos (by simp [h])]
      show (if k0 = k then some v0 else localLookup (t.filter (fun p => p.1 ≠ k)) k) = none
      rw [if_neg h]
      exact localLookup_filter_out k t

/-- C10: `Destroy` against the registry: a call on an id the registry does
not hold fails with `NotFound` and returns the registry unchanged, and
after a successful destroy, a second destroy of the same id likewise fails
with `NotFound` and leaves the (already id-free) registry state exactly as
it was — no entry is added, removed, or altered by a failing call. -/
theorem destroy_destroyed_notfound {A : Type} (reg : List (Nat × A)) (oid : Nat) :
    (localLookup reg oid = none →
      regDestroy reg oid = (Except.error MapError.NotFound, reg)) ∧
    (∀ r1, regDestroy reg oid = (Except.ok (), r1) →
      regDestroy r1 oid = (Except.error MapError.NotFound, r1)) := by
  constructor
  · intro hnone
    unfold regDestroy
    rw [hnone]
  · intro r1 hok
    unfold regDestroy at hok ⊢
    rcases hlook : localLookup reg oid with _ | a
    · rw [hlook] at hok
      simp at hok
    · rw [hlook] at hok
      have hr1 : r1 = reg.filter (fun p => p.1 ≠ oid) := by
        have := congrArg Prod.snd hok
        simpa using this.symm
      subst hr1
      rw [localLookup_filter_out oid reg]

/-- C10 witness: destroying id 1 in the registry holding only id 1 and
then destroying it again fails with `NotFound` and an unchanged (empty)
registry. -/
theorem destroy_destroyed_notfound_case :
    regDestroy ([] : List (Nat × Nat)) 1 = (Except.error MapError.NotFound, []) :=
  (destroy_destroyed_notfound [((1 : Nat), (16 : Nat))] 1).2 [] rfl

theorem hrun_from (h : Handle) :
    ∀ es : List HEvent,
      (es.foldl hstep h).issued = h.issued + countIssue es ∧
      (es.foldl hstep h).completed = h.completed + countComplete es
  | [] => by
    constructor <;> simp [countIssue, countComplete]
  | e :: es => by
    have ih := hrun_from (hstep h e) es
    cases e with
    | issue =>
      constructor
      · rw [List.foldl_cons, ih.1]
        simp [hstep, countIssue, List.countP_cons]
        omega
      · rw [List.foldl_cons, ih.2]
        simp [hstep, countComplete, List.countP_cons]
    | complete =>
      constructor
      · rw [List.foldl_cons, ih.1]
        simp [hstep, countIssue, List.countP_cons]
      · rw [List.foldl_cons, ih.2]
        simp [hstep, countComplete, List.countP_cons]
        omega

theorem validFrom_le :
    ∀ (es : List HEvent) (i c : Nat), validFrom i c es = true → c ≤ i →
      c + countComplete es ≤ i + countIssue es
  | [], i, c, _, hle => by
    simp [countIssue, countComplete]
    omega
  | .issue :: es, i, c, hv, hle => by
    have hv2 : validFrom (i + 1) c es = true := hv
    have hrec := validFrom_le es (i + 1) c hv2 (by omega)
    simp [countIssue, countComplete, List.countP_cons] at hrec ⊢
    omega
  | .complete :: es, i, c, hv, hle => by
    have hv2 : (decide (c < i) && validFrom i (c + 1) es) = true := hv
    rcases Bool.and_eq_true_iff.mp hv2 with ⟨hci, hrest⟩
    have hci2 : c < i := of_decide_eq_true hci
    have hrec := validFrom_le es i (c + 1) hrest (by omega)
    simp [countIssue, countComplete, List.countP_cons] at hrec ⊢
    omega

/-- C3: on a valid event trace (one in which each completion callback
fires only for an already-dispatched operation), the handle's counters
satisfy `completed ≤ issued` at the end of the trace (the same argument
at any prefix gives the invariant at all times); issuing increments
`issued` and completing increments `completed` by definition of `hstep`;
and for a trace of `N` issues, `waitForCompletion`'s return condition
`completed == issued` holds exactly when `N` completions have been
recorded — never earlier. -/
theorem completion_accounting (es : List HEvent) (N : Nat)
    (hv : validTrace es = true) (hN : countIssue es = N) :
    (hrun es).completed ≤ (hrun es).issued ∧
    (waitReturns (hrun es) = true ↔ countComplete es = N) := by
  have hc := hrun_from ⟨0, 0⟩ es
  dsimp only at hc
  have hle := validFrom_le es 0 0 hv (Nat.le_refl 0)
  unfold hrun waitReturns
  constructor
  · omega
  · rw [hc.1, hc.2]
    simp only [decide_eq_true_eq]
    omega

/-- C3 witness: the trace issue-issue-complete-complete of N = 2
operations is valid, ends with `completed ≤ issued`, and satisfies the
wait condition exactly because both completions were recorded. -/
theorem completion_accounting_case :
    (hrun [HEvent.issue, HEvent.issue, HEvent.complete, HEvent.complete]).completed
        ≤ (hrun [HEvent.issue, HEvent.issue, HEvent.complete, HEvent.complete]).issued ∧
      (waitReturns (hrun [HEvent.issue, HEvent.issue, HEvent.complete, HEvent.complete]) = true
        ↔ countComplete [HEvent.issue, HEvent.issue, HEvent.complete, HEvent.complete] = 2) :=
  completion_accounting [HEvent.issue, HEvent.issue, HEvent.complete, HEvent.complete] 2
    (by decide) (by decide)

/-- Modelled from the spec (§8, scenario): a map over 4 localities — the
capacity hint 16 sizes the shards but does not affect which keys end up
where — after inserting keys 0..99 via `AsyncInsert` under one handle and
waiting for completion: each async insert completes to the `dmapInsert`
update, and integer keys hash to themselves. -/
def scenarioMap : DMap Nat Nat :=
  (List.range 100).foldl (fun st k => dmapInsert id st k k) ⟨4, fun _ => []⟩

set_option maxRecDepth 10000 in
/-- C9: on the 4-locality scenario map holding keys 0..99,
`AsyncForEachKey` invokes the caller-supplied function on exactly 100
keys summed across all localities, and each key 0..99 is visited exactly
once. -/
theorem async_foreach_key_scenario :
    (dmapForEachKeys scenarioMap).length = 100 ∧
    ((List.range 100).all (fun k => (dmapForEachKeys scenarioMap).count k = 1)) = true := by
  constructor
  · decide
  · decide

theorem localLookup_foldl_kfree {K V : Type} [DecidableEq K] (k : K) :
    ∀ (es : List (K × V)) (sh : List (K × V)), (∀ e ∈ es, e.1 ≠ k) →
      localLookup (es.foldl (fun s e => localInsert s e.1 e.2) sh) k = localLookup sh k
  | [], _, _ => rfl
  | e :: es, sh, h => by
    rw [List.foldl_cons]
    rw [localLookup_foldl_kfree k es _ (fun x hx => h x (List.mem_cons_of_mem e hx))]
    exact localLookup_localInsert_ne k e.1 (h e (List.mem_cons_self e es)) sh e.2

theorem localLookup_foldl_pending {K V : Type} [DecidableEq K] (k : K) (v : V)
    (old : List (K × V)) (sh : List (K × V)) :
    localLookup ((old ++ [(k, v)]).foldl (fun s e => localInsert s e.1 e.2) sh) k
      = some v := by
  rw [List.foldl_append]
  show localLookup (localInsert (old.foldl (fun s e => localInsert s e.1 e.2) sh) k v) k
    = some v
  exact localLookup_localInsert _ k v

/-- All pending buffers of a buffered-map state are free of key `k`. -/
def kfreeBuffers {K V : Type} (st : BufMap K V) (k : K) : Prop :=
  ∀ s t, ∀ e ∈ st.buffers s t, e.1 ≠ k

theorem flushBuffer_numLoc {K V : Type} [DecidableEq K] (st : BufMap K V) (src tgt : Nat) :
    (flushBuffer st src tgt).numLoc = st.numLoc := rfl

theorem bufLookup_flush_kfree {K V : Type} [DecidableEq K] (hash : K → Nat)
    (st : BufMap K V) (src tgt : Nat) (k : K) (c2 : Nat)
    (h : ∀ e ∈ st.buffers src tgt, e.1 ≠ k) :
    bufLookup hash (flushBuffer st src tgt) c2 k = bufLookup hash st c2 k := by
  unfold bufLookup flushBuffer
  dsimp only
  by_cases ht : partitionLoc hash st.numLoc k = tgt
  · rw [if_pos ht, ht]
    exact localLookup_foldl_kfree k _ _ h
  · rw [if_neg ht]

theorem kfreeBuffers_flush {K V : Type} [DecidableEq K] (st : BufMap K V)
    (src tgt : Nat) (k : K) (h : kfreeBuffers st k) :
    kfreeBuffers (flushBuffer st src tgt) k := by
  intro s t e he
  unfold flushBuffer at he
  dsimp only at he
  by_cases hst : s = src ∧ t = tgt
  · rw [if_pos hst] at he
    simp at he
  · rw [if_neg hst] at he
    exact h s t e he

theorem bufLookup_foldl_flush_kfree {K V : Type} [DecidableEq K] (hash : K → Nat)
    (k : K) (c2 : Nat) :
    ∀ (ps : List (Nat × Nat)) (st : BufMap K V), kfreeBuffers st k →
      bufLookup hash (ps.foldl (fun acc p => flushBuffer acc p.1 p.2) st) c2 k
        = bufLookup hash st c2 k
  | [], _, _ => rfl
  | p :: ps, st, h => by
    rw [List.foldl_cons]
    rw [bufLookup_foldl_flush_kfree hash k c2 ps (flushBuffer st p.1 p.2)
      (kfreeBuffers_flush st p.1 p.2 k h)]
    exact bufLookup_flush_kfree hash st p.1 p.2 k c2 (h p.1 p.2)

theorem bufLookup_flush_pending {K V : Type} [DecidableEq K] (hash : K → Nat)
    (st : BufMap K V) (src : Nat) (k : K) (v : V) (old : List (K × V)) (c2 : Nat)
    (hbuf : st.buffers src (partitionLoc hash st.numLoc k) = old ++ [(k, v)]) :
    bufLookup hash (flushBuffer st src (partitionLoc hash st.numLoc k)) c2 k = some v := by
  unfold bufLookup flushBuffer
  dsimp only
  rw [if_pos rfl, hbuf]
  exact localLookup_foldl_pending k v old _

theorem bufLookup_foldl_flush_pending {K V : Type} [DecidableEq K] (hash : K → Nat)
    (k : K) (v : V) (c2 : Nat) :
    ∀ (ps : List (Nat × Nat)) (st : BufMap K V) (src : Nat) (old : List (K × V)),
      (src, partitionLoc hash st.numLoc k) ∈ ps →
      st.buffers src (partitionLoc hash st.numLoc k) = old ++ [(k, v)] →
      (∀ s t, ¬(s = src ∧ t = partitionLoc hash st.numLoc k) →
        ∀ e ∈ st.buffers s t, e.1 ≠ k) →
      bufLookup hash (ps.foldl (fun acc p => flushBuffer acc p.1 p.2) st) c2 k = some v
  | [], _, _, _, hmem, _, _ => absurd hmem (List.not_mem_nil _)
  | p :: ps, st, src, old, hmem, hbuf, hothers => by
    rw [List.foldl_cons]
    by_cases hp : p = (src, partitionLoc hash st.numLoc k)
    · subst hp
      have hlook : bufLookup hash (flushBuffer st src (partitionLoc hash st.numLoc k)) c2 k
          = some v := bufLookup_flush_pending hash st src k v old c2 hbuf
      have hfree : kfreeBuffers (flushBuffer st src (partitionLoc hash st.numLoc k)) k := by
        intro s t e he
        unfold flushBuffer at he
        dsimp only at he
        by_cases hst : s = src ∧ t = partitionLoc hash st.numLoc k
        · rw [if_pos hst] at he
          simp at he
        · rw [if_neg hst] at he
          exact hothers s t hst e he
      rw [bufLookup_foldl_flush_kfree hash k c2 ps _ hfree]
      exact hlook
    · have hnum : (flushBuffer st p.1 p.2).numLoc = st.numLoc := rfl
      have hcond : ¬(src = p.1 ∧ partitionLoc hash st.numLoc k = p.2) := by
        intro hconj
        apply hp
        rw [hconj.1, hconj.2]
      have hbuf2 : (flushBuffer st p.1 p.2).buffers src (partitionLoc hash st.numLoc k)
          = old ++ [(k, v)] := by
        unfold flushBuffer
        dsimp only
        rw [if_neg hcond]
        exact hbuf
      have hmem2 : (src, partitionLoc hash st.numLoc k) ∈ ps := by
        rcases List.mem_cons.mp hmem with h1 | h1
        · exact absurd h1.symm hp
        · exact h1
      have hothers2 : ∀ s t, ¬(s = src ∧ t = partitionLoc hash st.numLoc k) →
          ∀ e ∈ (flushBuffer st p.1 p.2).buffers s t, e.1 ≠ k := by
        intro s t hst e he
        unfold flushBuffer at he
        dsimp only at he
        by_cases hst2 : s = p.1 ∧ t = p.2
        · rw [if_pos hst2] at he
          simp at he
        · rw [if_neg hst2] at he
          exact hothers s t hst e he
      have := bufLookup_foldl_flush_pending hash k v c2 ps (flushBuffer st p.1 p.2) src old
        (by rw [hnum]; exact hmem2) (by rw [hnum]; exact hbuf2)
        (by rw [hnum]; exact hothers2)
      exact this

theorem mem_pairList (n s t : Nat) (hs : s < n) (ht : t < n) :
    (s, t) ∈ (List.range n).flatMap (fun a => (List.range n).map (fun b => (a, b))) := by
  rw [List.mem_flatMap]
  exact ⟨s, List.mem_range.mpr hs, List.mem_map.mpr ⟨t, List.mem_range.mpr ht, rfl⟩⟩

theorem bufferedAsyncInsert_split {K V : Type} [DecidableEq K] (hash : K → Nat)
    (cap : Nat) (st : BufMap K V) (caller : Nat) (k : K) (v : V) :
    bufferedAsyncInsert hash cap st caller k v =
      if cap ≤ (st.buffers caller (partitionLoc hash st.numLoc k)).length + 1 then
        flushBuffer
          { st with buffers := fun s t =>
              if s = caller ∧ t = partitionLoc hash st.numLoc k
              then st.buffers s t ++ [(k, v)] else st.buffers s t }
          caller (partitionLoc hash st.numLoc k)
      else
        { st with buffers := fun s t =>
            if s = caller ∧ t = partitionLoc hash st.numLoc k
            then st.buffers s t ++ [(k, v)] else st.buffers s t } := by
  unfold bufferedAsyncInsert
  dsimp only
  rw [if_pos (⟨rfl, rfl⟩ :
    caller = caller ∧ partitionLoc hash st.numLoc k = partitionLoc hash st.numLoc k)]
  simp only [List.length_append, List.length_cons, List.length_nil, Nat.zero_add]

/-- C4: with no other write to key `k` pending anywhere, a
`BufferedAsyncInsert(k, v)` issued on a valid locality (a) leaves `k`
invisible to every lookup while the entry sits unflushed in its buffer —
below the flush capacity, the shards are untouched, so lookups from every
locality see exactly the pre-insert state; and (b) once
`WaitForBufferedInsert` has flushed every buffer and its batch inserts
have completed, lookups from every locality see `v` for `k`. -/
theorem buffered_insert_visibility {K V : Type} [DecidableEq K] (hash : K → Nat)
    (cap : Nat) (st : BufMap K V) (caller : Nat) (k : K) (v : V)
    (hcaller : caller < st.numLoc)
    (hkfree : ∀ s t, ∀ e ∈ st.buffers s t, e.1 ≠ k) :
    ((st.buffers caller (partitionLoc hash st.numLoc k)).length + 1 < cap →
      ∀ c2, bufLookup hash (bufferedAsyncInsert hash cap st caller k v) c2 k
          = bufLookup hash st c2 k) ∧
    (∀ c2, bufLookup hash
        (waitForBufferedInsert (bufferedAsyncInsert hash cap st caller k v)) c2 k
      = some v) := by
  have hn : 0 < st.numLoc := Nat.lt_of_le_of_lt (Nat.zero_le caller) hcaller
  have htgt : partitionLoc hash st.numLoc k < st.numLoc := Nat.mod_lt _ hn
  have hbuf1 :
      (({ st with buffers := fun s t =>
            if s = caller ∧ t = partitionLoc hash st.numLoc k
            then st.buffers s t ++ [(k, v)] else st.buffers s t } : BufMap K V)).buffers
          caller (partitionLoc hash st.numLoc k)
        = st.buffers caller (partitionLoc hash st.numLoc k) ++ [(k, v)] := by
    dsimp only
    rw [if_pos ⟨rfl, rfl⟩]
  have hothers1 : ∀ s t, ¬(s = caller ∧ t = partitionLoc hash st.numLoc k) →
      ∀ e ∈ (({ st with buffers := fun s t =>
            if s = caller ∧ t = partitionLoc hash st.numLoc k
            then st.buffers s t ++ [(k, v)] else st.buffers s t } : BufMap K V)).buffers s t,
        e.1 ≠ k := by
    intro s t hst e he
    dsimp only at he
    rw [if_neg hst] at he
    exact hkfree s t e he
  constructor
  · intro hlt c2
    rw [bufferedAsyncInsert_split, if_neg (by omega)]
    rfl
  · intro c2
    rw [bufferedAsyncInsert_split]
    by_cases hflush : cap ≤ (st.buffers caller (partitionLoc hash st.numLoc k)).length + 1
    · rw [if_pos hflush]
      unfold waitForBufferedInsert
      rw [bufLookup_foldl_flush_kfree hash k c2 _ _ (by
        intro s t e he
        unfold flushBuffer at he
        dsimp only at he
        by_cases hst : s = caller ∧ t = partitionLoc hash st.numLoc k
        · rw [if_pos hst] at he
          simp at he
        · rw [if_neg hst] at he
          exact hothers1 s t hst e he)]
      exact bufLookup_flush_pending hash _ caller k v
        (st.buffers caller (partitionLoc hash st.numLoc k)) c2 hbuf1
    · rw [if_neg hflush]
      unfold waitForBufferedInsert
      exact bufLookup_foldl_flush_pending hash k v c2 _ _ caller
        (st.buffers caller (partitionLoc hash st.numLoc k))
        (mem_pairList _ caller _ hcaller htgt) hbuf1 hothers1

/-- C4 witness: on a clean 2-locality map with batch capacity 64, a
buffered insert of key 3, value 7 followed by `WaitForBufferedInsert`
makes the key visible to a lookup from the other locality. -/
theorem buffered_insert_visibility_case :
    bufLookup id (waitForBufferedInsert (bufferedAsyncInsert id 64
        (⟨2, fun _ => [], fun _ _ => []⟩ : BufMap Nat Nat) 0 3 7)) 1 3 = some 7 :=
  (buffered_insert_visibility id 64 (⟨2, fun _ => [], fun _ _ => []⟩ : BufMap Nat Nat)
    0 3 7 (by decide) (fun s t e he => absurd he (List.not_mem_nil e))).2 1
